import Mathlib

/-!
Verification development for the track-matching core of the spotifyt
repository: the text normalizer (`normalize.ts`), the fuzzy matcher
(`matcher.ts`), the worker-thread matcher (`matcher.worker.ts`) and the
Gemini AI matcher fallback (`useGeminiMatching.ts`).

Strings are modelled as `List Char`; the JavaScript regular-expression
replacements of the normalizer are embedded as deterministic leftmost-match
scanners that mirror the semantics of each concrete pattern (all the
patterns involved are backtracking-free or have a finite, explicitly
handled, backtracking order).  JavaScript numbers are modelled as `ℚ`
(the code only performs exact arithmetic on the values involved, apart
from the fuzzy-similarity primitive which is kept abstract).
-/

namespace Spotifyt

/-- JS `\s` character class (the WhiteSpace and LineTerminator productions),
as used by `\s` in the normalizer's regexes and by `String.prototype.trim`. -/
def isJsWs (c : Char) : Bool :=
  c == ' ' || c == '\t' || c == '\n' || c.toNat == 11 || c.toNat == 12 || c == '\r' ||
  c.toNat == 0xa0 || c.toNat == 0x1680 || (0x2000 ≤ c.toNat && c.toNat ≤ 0x200a) ||
  c.toNat == 0x2028 || c.toNat == 0x2029 || c.toNat == 0x202f || c.toNat == 0x205f ||
  c.toNat == 0x3000 || c.toNat == 0xfeff

/-- JS LineTerminator class: the characters `.` does NOT match in a regex
without the `s` flag. -/
def isLineTerm (c : Char) : Bool :=
  c == '\n' || c == '\r' || c.toNat == 0x2028 || c.toNat == 0x2029

/-- Length of the longest prefix whose characters satisfy `p`. -/
def countWhile (p : Char → Bool) : List Char → Nat
  | [] => 0
  | c :: cs => if p c then countWhile p cs + 1 else 0

/-- Case-insensitive "starts with" (models a case-insensitive literal in a
`/.../i` regex; `pat` is given in lowercase). -/
def ciStartsWith : List Char → List Char → Bool
  | [], _ => true
  | _ :: _, [] => false
  | p :: ps, c :: cs => p == c.toLower && ciStartsWith ps cs

/-- Case-insensitive "ends with" (an `/i`-flagged pattern anchored at `$`). -/
def ciEndsWith (pat l : List Char) : Bool :=
  ciStartsWith pat.reverse l.reverse

/-- The combinator `replaceAll tryMatch repl l` models JS `l.replace(/pat/g, repl)` for a
pattern embodied by `tryMatch`: at each position, `tryMatch` returns the
length of the (unique leftmost-first) match starting there, or `none`.
On a match the scan resumes after the matched span, exactly as JS `lastIndex`
advances for a global replace. (The `n = 0` case never arises for the
patterns used here — every pattern consumes at least one character — but is
given JS's empty-match semantics: emit the replacement and keep the char.) -/
def replaceAllGo (tryMatch : List Char → Option Nat) (repl : List Char) :
    Nat → List Char → List Char
  | _, [] => []
  | 0, l => l
  | fuel + 1, c :: cs =>
    match tryMatch (c :: cs) with
    | some n =>
      if 0 < n then repl ++ replaceAllGo tryMatch repl fuel ((c :: cs).drop n)
      else repl ++ c :: replaceAllGo tryMatch repl fuel cs
    | none => c :: replaceAllGo tryMatch repl fuel cs

/-- Entry point of the global replace: every scan step consumes at least one
character, so `l.length` fuel always suffices. -/
def replaceAll (tryMatch : List Char → Option Nat) (repl : List Char) (l : List Char) :
    List Char :=
  replaceAllGo tryMatch repl l.length l

/-- Matcher for `\s*⟨opn⟩word\.?\s+[^⟨cls⟩]+⟨cls⟩` (with the `\.?` part only
when `allowDot`): the shape of the `(feat. …)`, `(ft. …)`, `[feat. …]` and
`(official …)` removal patterns.  The only backtracking point of such a
pattern is between the greedy `\s+` and `[^c]+` when the character after the
whitespace run is the closing delimiter; it is resolved exactly as a
backtracking engine does (give one whitespace character to `[^c]+`). -/
def tryTag (opn cls : Char) (word : List Char) (allowDot : Bool) (l : List Char) :
    Option Nat :=
  let k := countWhile isJsWs l
  match l.drop k with
  | [] => none
  | c :: r1 =>
    if c == opn && ciStartsWith word r1 then
      let r2 := r1.drop word.length
      let d : Nat := if allowDot && (r2.head? == some '.') then 1 else 0
      let r3 := r2.drop d
      let m := countWhile isJsWs r3
      if m == 0 then none
      else
        match (l.drop k).drop (1 + word.length + d + m) with
        | [] => none
        | c4 :: r5 =>
          if c4 == cls then
            if 2 ≤ m then some (k + 1 + word.length + d + m + 1) else none
          else
            let j := (countWhile (fun x => !(x == cls)) (c4 :: r5))
            if j < (c4 :: r5).length then some (k + 1 + word.length + d + m + j + 1)
            else none
    else none

def featW : List Char := ['f', 'e', 'a', 't']
def ftW : List Char := ['f', 't']
def officialW : List Char := ['o', 'f', 'f', 'i', 'c', 'i', 'a', 'l']
def musicW : List Char := ['m', 'u', 's', 'i', 'c']
def videoW : List Char := ['v', 'i', 'd', 'e', 'o']
def audioW : List Char := ['a', 'u', 'd', 'i', 'o']
def lyricW : List Char := ['l', 'y', 'r', 'i', 'c']
def lyricsW : List Char := ['l', 'y', 'r', 'i', 'c', 's']
def visualiserW : List Char := ['v', 'i', 's', 'u', 'a', 'l', 'i', 's', 'e', 'r']
def visualizerW : List Char := ['v', 'i', 's', 'u', 'a', 'l', 'i', 'z', 'e', 'r']
def andW : List Char := [' ', 'a', 'n', 'd', ' ']

/-- Dash or the en dash `–`: the `[-–]` class of the title regexes. -/
def isDash (c : Char) : Bool := c == '-' || c.toNat == 0x2013

/-- Helper: `word` followed by `\s+`; returns consumed length and rest, or `none`. -/
def wordThenWs (word : List Char) (l : List Char) : Option (Nat × List Char) :=
  if ciStartsWith word l then
    let r := l.drop word.length
    let q := countWhile isJsWs r
    if q == 0 then none else some (word.length + q, r.drop q)
  else none

/-- Matcher for `\s*[-–]\s*(official\s+)?(music\s+)?video`, with the regex
backtracking order over the two optional groups: (yes,yes), (yes,no),
(no,yes), (no,no). -/
def tryDashVideo (l : List Char) : Option Nat :=
  let k := countWhile isJsWs l
  match l.drop k with
  | [] => none
  | c :: r1 =>
    if isDash c then
      let m := countWhile isJsWs r1
      let r2 := r1.drop m
      let base := k + 1 + m
      let afterMusic : Nat → List Char → Option Nat := fun acc r =>
        match wordThenWs musicW r with
        | some (n2, rb) =>
          if ciStartsWith videoW rb then some (acc + n2 + videoW.length)
          else if ciStartsWith videoW r then some (acc + videoW.length) else none
        | none => if ciStartsWith videoW r then some (acc + videoW.length) else none
      match wordThenWs officialW r2 with
      | some (n1, ra) =>
        match afterMusic (base + n1) ra with
        | some t => some t
        | none => afterMusic base r2
      | none => afterMusic base r2
    else none

/-- Matcher for `\s*[-–]\s*official\s+audio`. -/
def tryDashOfficialAudioTag (l : List Char) : Option Nat :=
  let k := countWhile isJsWs l
  match l.drop k with
  | [] => none
  | c :: r1 =>
    if isDash c then
      let m := countWhile isJsWs r1
      match wordThenWs officialW (r1.drop m) with
      | some (n1, ra) =>
        if ciStartsWith audioW ra then some (k + 1 + m + n1 + audioW.length) else none
      | none => none
    else none

/-- Matcher for `\s*\(word\s*\)`: the `(audio)` shape (and each branch of
`(lyrics?)` and `(visuali[sz]er)`). -/
def tryParenWordClose (word : List Char) (l : List Char) : Option Nat :=
  let k := countWhile isJsWs l
  match l.drop k with
  | '(' :: r1 =>
    if ciStartsWith word r1 then
      let r2 := r1.drop word.length
      let m := countWhile isJsWs r2
      match r2.drop m with
      | ')' :: _ => some (k + 1 + word.length + m + 1)
      | _ => none
    else none
  | _ => none

/-- Matcher for `\s*\(lyrics?\s*\)` (the greedy `s?` branch first). -/
def tryParenLyrics (l : List Char) : Option Nat :=
  match tryParenWordClose lyricsW l with
  | some n => some n
  | none => tryParenWordClose lyricW l

/-- Matcher for `\s*\(visuali[sz]er\s*\)`. -/
def tryParenVisualizer (l : List Char) : Option Nat :=
  match tryParenWordClose visualiserW l with
  | some n => some n
  | none => tryParenWordClose visualizerW l

/-- Matcher for `\s*\|\s*.*$` ("remove everything after `|`").  Since `.`
does not match a LineTerminator and `$` (without `m`) only matches at the end
of the input, the pattern matches at a `|` precisely when no line terminator
remains after the greedy inner `\s*` run; the match then extends to the end
of the string. -/
def tryPipe (l : List Char) : Option Nat :=
  let k := countWhile isJsWs l
  match l.drop k with
  | '|' :: r1 =>
    let m := countWhile isJsWs r1
    if (r1.drop m).any isLineTerm then none else some l.length
  | _ => none

/-- The pass `/['']/g → "'"`: a single-character class replaced by a single character
is a character-wise map. -/
def aposChar (c : Char) : Char :=
  if c.toNat == 0x2018 || c.toNat == 0x2019 then '\'' else c

/-- The pass `/[""]/g → '"'`. -/
def quoteChar (c : Char) : Char :=
  if c.toNat == 0x201c || c.toNat == 0x201d then '"' else c

/-- The pass `/\s+/g → ' '` collapses every maximal whitespace run to one
space; `inRun` records whether the previous character was part of a
whitespace run already replaced. -/
def collapseWsGo : Bool → List Char → List Char
  | _, [] => []
  | inRun, c :: cs =>
    if isJsWs c then
      if inRun then collapseWsGo true cs else ' ' :: collapseWsGo true cs
    else c :: collapseWsGo false cs

/-- The pass `/\s+/g → ' '`. -/
def collapseWs (l : List Char) : List Char :=
  collapseWsGo false l

/-- Remove trailing characters satisfying `p`. -/
def dropEndWhile (p : Char → Bool) (l : List Char) : List Char :=
  (l.reverse.dropWhile p).reverse

/-- JS `String.prototype.trim`. -/
def trimWs (l : List Char) : List Char :=
  dropEndWhile isJsWs (l.dropWhile isJsWs)

/-- The ten tag/suffix removal passes of `normalizeTrackTitle`
(`matching/normalize.ts` lines 6‑15), in source order. -/
def titleRemovalsL (l : List Char) : List Char :=
  let s1 := replaceAll (tryTag '(' ')' featW true) [] l
  let s2 := replaceAll (tryTag '(' ')' ftW true) [] s1
  let s3 := replaceAll (tryTag '[' ']' featW true) [] s2
  let s4 := replaceAll tryDashVideo [] s3
  let s5 := replaceAll tryDashOfficialAudioTag [] s4
  let s6 := replaceAll (tryTag '(' ')' officialW false) [] s5
  let s7 := replaceAll tryParenLyrics [] s6
  let s8 := replaceAll (tryParenWordClose audioW) [] s7
  let s9 := replaceAll tryParenVisualizer [] s8
  replaceAll tryPipe [] s9

/-- Body of `normalizeTrackTitle` on `List Char`: lowercase (JS `toLowerCase`,
modelled on the basic-latin range by `Char.toLower`), the ten removal
passes, apostrophe and quote normalization, whitespace collapse, trim. -/
def normalizeTrackTitleL (l : List Char) : List Char :=
  trimWs (collapseWs (((titleRemovalsL (l.map Char.toLower)).map aposChar).map quoteChar))

/-- The function `normalizeTrackTitle` (matching/normalize.ts lines 3‑20). -/
def normalizeTrackTitle (s : String) : String :=
  String.mk (normalizeTrackTitleL s.data)

/-- The pass `/vevo$/i → ''` (no `g`, `$`-anchored: a single suffix strip). -/
def vevoStrip (l : List Char) : List Char :=
  if ciEndsWith ['v', 'e', 'v', 'o'] l then l.take (l.length - 4) else l

/-- The pass `/\s*-?\s*word$/i → ''`: the `topic` and `official` channel-suffix
strips.  The leftmost match of this `$`-anchored pattern extends maximally
to the left: whitespace, then at most one `-`, then more whitespace. -/
def dashWordSuffixStrip (word : List Char) (l : List Char) : List Char :=
  if ciEndsWith word l then
    let p1 := dropEndWhile isJsWs (l.take (l.length - word.length))
    match p1.reverse with
    | '-' :: rest => (rest.dropWhile isJsWs).reverse
    | _ => p1
  else l

def topicW : List Char := ['t', 'o', 'p', 'i', 'c']

/-- The three channel-suffix strips of `normalizeArtistName`
(normalize.ts lines 26‑28), in source order. -/
def artistStripsL (l : List Char) : List Char :=
  dashWordSuffixStrip officialW (dashWordSuffixStrip topicW (vevoStrip l))

/-- The pass `/([a-z])([A-Z])/g → '$1 $2'`: after a match the scan resumes after the
second character, exactly as the JS global replace does. -/
def camelSplit : List Char → List Char
  | [] => []
  | [c] => [c]
  | c1 :: c2 :: rest =>
    if c1.isLower && c2.isUpper then c1 :: ' ' :: c2 :: camelSplit rest
    else c1 :: camelSplit (c2 :: rest)

/-- Matcher for `\s*⟨sep⟩\s*`: the `&` and `,` separator patterns. -/
def trySepChar (sep : Char) (l : List Char) : Option Nat :=
  let k := countWhile isJsWs l
  match l.drop k with
  | c :: r1 => if c == sep then some (k + 1 + countWhile isJsWs r1) else none
  | [] => none

/-- Body of `normalizeArtistName` on `List Char`: lowercase, the three suffix
strips, camelCase split, `&`/`,` → " and ", apostrophe normalization,
whitespace collapse, trim (normalize.ts lines 22‑37, in source order). -/
def normalizeArtistNameL (l : List Char) : List Char :=
  let s1 := artistStripsL (l.map Char.toLower)
  let s2 := camelSplit s1
  let s3 := replaceAll (trySepChar '&') andW s2
  let s4 := replaceAll (trySepChar ',') andW s3
  let s5 := s4.map aposChar
  trimWs (collapseWs s5)

/-- The function `normalizeArtistName` (matching/normalize.ts lines 22‑37). -/
def normalizeArtistName (s : String) : String :=
  String.mk (normalizeArtistNameL s.data)

/-- String-level wrapper for the title removal passes (used to state which
inputs the idempotence property holds on). -/
def titleRemovals (s : String) : String := String.mk (titleRemovalsL s.data)

/-- String-level wrapper for the artist suffix strips. -/
def artistStrips (s : String) : String := String.mk (artistStripsL s.data)

/-- Platform tag of a track (types.ts line 136). -/
inductive Platform where
  | spotify
  | youtube
deriving DecidableEq, Repr

/-- The record `UnifiedTrack` (types.ts lines 134‑145).  Durations are JS
numbers, modelled as `ℚ`.  The opaque `raw` bag is omitted: per the data
model it is retained for display only and never used in comparisons. -/
structure UnifiedTrack where
  id : String
  platform : Platform
  title : String
  artist : String
  artists : List String
  album : Option String := none
  durationMs : ℚ
  isrc : Option String := none
  videoId : Option String := none
deriving DecidableEq, Repr

/-- The function `buildSearchQuery` (normalize.ts lines 39‑45):
the template "artist title" on the normalized fields. -/
def buildSearchQuery (track : UnifiedTrack) : String :=
  normalizeArtistName track.artist ++ " " ++ normalizeTrackTitle track.title

/-- The enumeration `MatchStatus` (types.ts line 147). -/
inductive MatchStatus where
  | matched
  | low_confidence
  | not_found
  | already_exists
deriving DecidableEq, Repr

/-- The record `MatchResult` (types.ts lines 149‑155); the optional
`existingId` field is `none` when absent. -/
structure MatchResult where
  source : UnifiedTrack
  target : Option UnifiedTrack
  confidence : ℚ
  status : MatchStatus
  existingId : Option String := none
deriving DecidableEq, Repr

/-- The record `MatchConfig` (types.ts lines 157‑165). -/
structure MatchConfig where
  highConfidenceThreshold : ℚ
  lowConfidenceThreshold : ℚ
  durationToleranceMs : ℚ
  durationWeight : ℚ
  titleWeight : ℚ
  artistWeight : ℚ
  maxSearchResults : Nat
deriving DecidableEq, Repr

/-- The constant `DEFAULT_MATCH_CONFIG` (types.ts lines 167‑175). -/
def DEFAULT_MATCH_CONFIG : MatchConfig :=
  { highConfidenceThreshold := 80/100
    lowConfidenceThreshold := 55/100
    durationToleranceMs := 3000
    durationWeight := 15/100
    titleWeight := 55/100
    artistWeight := 30/100
    maxSearchResults := 10 }

/-- Composite score of one candidate against the source: the body of the
scoring loop of `matchTrack` (matcher.ts lines 41‑73).  The fuzzy string
similarity of the `fast-fuzzy` library is an external primitive, passed in
as `fz`. -/
def scoreCandidate (fz : String → String → ℚ) (source candidate : UnifiedTrack)
    (config : MatchConfig) : ℚ :=
  let normalizedSourceTitle := normalizeTrackTitle source.title
  let normalizedCandidateTitle := normalizeTrackTitle candidate.title
  let normalizedSourceArtist := normalizeArtistName source.artist
  let normalizedCandidateArtist := normalizeArtistName candidate.artist
  let titleScore := fz normalizedSourceTitle normalizedCandidateTitle
  let titleScore :=
    if normalizedSourceTitle = normalizedCandidateTitle then max titleScore (98/100)
    else titleScore
  let artistScore := fz normalizedSourceArtist normalizedCandidateArtist
  let artistScore :=
    if normalizedSourceArtist = normalizedCandidateArtist then max artistScore (98/100)
    else artistScore
  let durationDiff := |source.durationMs - candidate.durationMs|
  let durationScore := max 0 (1 - durationDiff / (config.durationToleranceMs * 3))
  let compositeScore :=
    titleScore * config.titleWeight +
    artistScore * config.artistWeight +
    durationScore * config.durationWeight
  if normalizedSourceTitle = normalizedCandidateTitle ∧
      normalizedSourceArtist = normalizedCandidateArtist then
    min (99/100) (compositeScore + 10/100)
  else compositeScore

/-- Running-best loop of `matchTrack` (matcher.ts lines 38‑79): strict
improvement only, so ties keep the first-seen candidate. -/
def bestOf (fz : String → String → ℚ) (source : UnifiedTrack) (config : MatchConfig)
    (candidates : List UnifiedTrack) : Option UnifiedTrack × ℚ :=
  candidates.foldl
    (fun acc candidate =>
      let s := scoreCandidate fz source candidate config
      if acc.2 < s then (some candidate, s) else acc)
    (none, 0)

/-- The general path of `matchTrack` after the candidates have been fetched
(matcher.ts lines 34‑91). -/
def matchTrackCore (fz : String → String → ℚ) (source : UnifiedTrack)
    (candidates : List UnifiedTrack) (config : MatchConfig) : MatchResult :=
  if candidates.isEmpty then
    { source := source, target := none, confidence := 0, status := .not_found }
  else
    let best := bestOf fz source config candidates
    if best.1 = none ∨ best.2 < config.lowConfidenceThreshold then
      { source := source, target := best.1, confidence := best.2, status := .not_found }
    else
      { source := source, target := best.1, confidence := best.2
        status :=
          if config.highConfidenceThreshold ≤ best.2 then .matched else .low_confidence }

/-- General path of `matchTrack` (matcher.ts lines 31‑91): the search call
may throw, modelled by `Except`; its failure propagates. -/
def matchTrackGeneral {ε : Type} (fz : String → String → ℚ) (source : UnifiedTrack)
    (searchFn : String → Except ε (List UnifiedTrack)) (config : MatchConfig) :
    Except ε MatchResult :=
  match searchFn (buildSearchQuery source) with
  | .error e => .error e
  | .ok candidates => .ok (matchTrackCore fz source candidates config)

/-- The function `matchTrack` (matcher.ts lines 9‑91): ISRC fast path first
(its search failure or empty result falls through to the general path),
then the general path. -/
def matchTrack {ε : Type} (fz : String → String → ℚ) (source : UnifiedTrack)
    (searchFn : String → Except ε (List UnifiedTrack)) (config : MatchConfig) :
    Except ε MatchResult :=
  match source.isrc with
  | some isrc =>
    match searchFn isrc with
    | .ok (t :: _) =>
      .ok { source := source, target := some t, confidence := 99/100, status := .matched }
    | .ok [] => matchTrackGeneral fz source searchFn config
    | .error _ => matchTrackGeneral fz source searchFn config
  | none => matchTrackGeneral fz source searchFn config

/-- Existing-library check of `matchTracks` (matcher.ts lines 107‑111):
if the result has a target whose id is in `existingIds`, the status is
overridden to `already_exists` and `existingId` is set. -/
def applyExistingOverride (existingIds : List String) (r : MatchResult) : MatchResult :=
  match r.target with
  | some t =>
    if t.id ∈ existingIds then
      { r with status := .already_exists, existingId := some t.id }
    else r
  | none => r

/-- The function `matchTracks` (matcher.ts lines 93‑121), with the
rate-limiting delay and the progress callback (pure effects) dropped. -/
def matchTracks {ε : Type} (fz : String → String → ℚ) (sources : List UnifiedTrack)
    (searchFn : String → Except ε (List UnifiedTrack)) (existingIds : List String)
    (config : MatchConfig) : Except ε (List MatchResult) :=
  sources.mapM fun source => do
    let result ← matchTrack fz source searchFn config
    pure (applyExistingOverride existingIds result)

/-- The function `deduplicateResults` (matcher.ts lines 123‑133), with the
walked `seen` set made explicit. -/
def deduplicateGo (seen : List String) : List MatchResult → List MatchResult
  | [] => []
  | r :: rs =>
    match r.target with
    | none => r :: deduplicateGo seen rs
    | some t =>
      if t.id ∈ seen then { r with status := .already_exists } :: deduplicateGo seen rs
      else r :: deduplicateGo (t.id :: seen) rs

/-- Entry point of `deduplicateResults`: the seen-set starts empty. -/
def deduplicateResults (results : List MatchResult) : List MatchResult :=
  deduplicateGo [] results

/-- Scoring-loop body of the worker-thread matcher
(workers/matcher.worker.ts lines 35‑67); textually the same computation as
`scoreCandidate`, transcribed separately from its own source. -/
def workerScoreCandidate (fz : String → String → ℚ) (source candidate : UnifiedTrack)
    (config : MatchConfig) : ℚ :=
  let normalizedSourceTitle := normalizeTrackTitle source.title
  let normalizedCandidateTitle := normalizeTrackTitle candidate.title
  let normalizedSourceArtist := normalizeArtistName source.artist
  let normalizedCandidateArtist := normalizeArtistName candidate.artist
  let titleScore := fz normalizedSourceTitle normalizedCandidateTitle
  let titleScore :=
    if normalizedSourceTitle = normalizedCandidateTitle then max titleScore (98/100)
    else titleScore
  let artistScore := fz normalizedSourceArtist normalizedCandidateArtist
  let artistScore :=
    if normalizedSourceArtist = normalizedCandidateArtist then max artistScore (98/100)
    else artistScore
  let durationDiff := |source.durationMs - candidate.durationMs|
  let durationScore := max 0 (1 - durationDiff / (config.durationToleranceMs * 3))
  let compositeScore :=
    titleScore * config.titleWeight +
    artistScore * config.artistWeight +
    durationScore * config.durationWeight
  if normalizedSourceTitle = normalizedCandidateTitle ∧
      normalizedSourceArtist = normalizedCandidateArtist then
    min (99/100) (compositeScore + 10/100)
  else compositeScore

/-- Running-best loop of the worker (matcher.worker.ts lines 30‑73). -/
def workerBestOf (fz : String → String → ℚ) (source : UnifiedTrack) (config : MatchConfig)
    (candidates : List UnifiedTrack) : Option UnifiedTrack × ℚ :=
  candidates.foldl
    (fun acc candidate =>
      let s := workerScoreCandidate fz source candidate config
      if acc.2 < s then (some candidate, s) else acc)
    (none, 0)

/-- Message handler of the worker-thread matcher (matcher.worker.ts lines
17‑97) for a `match` message: empty-candidate early return, scoring loop,
then classification with the existing-id check nested inside the
above-low-threshold branch. -/
def workerOnMessage (fz : String → String → ℚ) (source : UnifiedTrack)
    (candidates : List UnifiedTrack) (config : MatchConfig)
    (existingIds : List String) : MatchResult :=
  if candidates.isEmpty then
    { source := source, target := none, confidence := 0, status := .not_found }
  else
    let best := workerBestOf fz source config candidates
    let status : MatchStatus :=
      match best.1 with
      | some bm =>
        if config.lowConfidenceThreshold ≤ best.2 then
          if bm.id ∈ existingIds then .already_exists
          else if config.highConfidenceThreshold ≤ best.2 then .matched
          else .low_confidence
        else .not_found
      | none => .not_found
    { source := source, target := best.1, confidence := best.2, status := status
      existingId :=
        match status, best.1 with
        | .already_exists, some bm => some bm.id
        | _, _ => none }

/-- The sequential result for one source track on a fixed candidate list:
the scoring and classification of `matchTrack` followed by the
existing-identifier override of `matchTracks`. -/
def seqResult (fz : String → String → ℚ) (source : UnifiedTrack)
    (candidates : List UnifiedTrack) (config : MatchConfig)
    (existingIds : List String) : MatchResult :=
  applyExistingOverride existingIds (matchTrackCore fz source candidates config)

/-- Outcome of one `callGeminiAPI` attempt, as distinguished by the code of
useGeminiMatching.ts lines 167‑206: the five ways the `try` block can throw
(fetch rejection, non-OK HTTP status, `response.json()` rejection, no JSON
object in the model text, `JSON.parse` throw), or a successfully parsed
response object carrying `bestMatchIndex` and an optional `confidence`. -/
inductive GeminiOutcome where
  | networkError
  | badStatus
  | bodyNotJson
  | noJsonObject
  | parseFail
  | parsed (bestMatchIndex : Int) (confidence : Option ℚ)
deriving DecidableEq, Repr

/-- Whether the outcome throws inside the `try` block (and therefore lands
in the `catch` fallback). -/
def GeminiOutcome.isThrownFailure : GeminiOutcome → Bool
  | .parsed _ _ => false
  | _ => true

/-- The function `callGeminiAPI` (useGeminiMatching.ts lines 145‑207),
returning the `{match, confidence}` pair.  The `catch` branch returns
`candidates[0] || null` with confidence 0.3; the parsed branch validates
`bestMatchIndex === -1 || bestMatchIndex < 0 || bestMatchIndex >=
candidates.length` and returns a null match with `confidence || 0` in that
case, otherwise the indexed candidate with `confidence || 0`. -/
def callGeminiAPI (candidates : List UnifiedTrack) (o : GeminiOutcome) :
    Option UnifiedTrack × ℚ :=
  match o with
  | .parsed i conf =>
    if i = -1 ∨ i < 0 ∨ (candidates.length : ℤ) ≤ i then (none, conf.getD 0)
    else (candidates.get? i.toNat, conf.getD 0)
  | _ => (candidates.head?, 3/10)

/-! ## Concrete sample data for witnesses and counterexamples -/

/-- Degenerate fuzzy primitive (a constant similarity of 0, which lies in
the library's advertised range) used for concrete instances. -/
def fzZero : String → String → ℚ := fun _ _ => 0

def sampleSource : UnifiedTrack :=
  { id := "src1", platform := .spotify, title := "a", artist := "x",
    artists := ["x"], durationMs := 100 }

def sampleIsrcSource : UnifiedTrack :=
  { sampleSource with id := "src2", isrc := some "QZRR1" }

def sampleCand : UnifiedTrack :=
  { id := "tgt1", platform := .youtube, title := "a", artist := "x",
    artists := ["x"], durationMs := 100 }

def sampleCandB : UnifiedTrack :=
  { id := "tgt2", platform := .youtube, title := "b", artist := "y",
    artists := ["y"], durationMs := 30000 }

def searchHitFn : String → Except Unit (List UnifiedTrack) := fun _ => .ok [sampleCand]

def searchEmptyFn : String → Except Unit (List UnifiedTrack) := fun _ => .ok []

def searchErrFn : String → Except Unit (List UnifiedTrack) := fun _ => .error ()

/-- A configuration with all three weights zero (admissible: non-negative,
summing to at most 1). -/
def cfgZeroWeights : MatchConfig :=
  { highConfidenceThreshold := 80/100, lowConfidenceThreshold := 55/100,
    durationToleranceMs := 3000, durationWeight := 0, titleWeight := 0,
    artistWeight := 0, maxSearchResults := 10 }

/-- A configuration with a negative duration tolerance and admissible
weights. -/
def cfgNegTol : MatchConfig :=
  { highConfidenceThreshold := 80/100, lowConfidenceThreshold := 55/100,
    durationToleranceMs := -1000, durationWeight := 1, titleWeight := 0,
    artistWeight := 0, maxSearchResults := 10 }

def mrMatched : MatchResult :=
  { source := sampleSource, target := some sampleCand, confidence := 9/10,
    status := .matched }

def mrNotFound : MatchResult :=
  { source := sampleSource, target := some sampleCand, confidence := 1/10,
    status := .not_found }

/-! ## C3 — the camelCase split runs after lowercasing -/

/-- C3 (code bug): the code's own comment promises
"JeremyZucker -> Jeremy Zucker", but `normalizeArtistName` lowercases
first, so the `([a-z])([A-Z])` replace never fires:
`normalizeArtistName "JeremyZuckerVEVO"` is `"jeremyzucker"`, not the
`"jeremy zucker"` the claim (and the spec) require. -/
theorem normalizeArtistName_camel_after_lowercase :
    normalizeArtistName "JeremyZuckerVEVO" = "jeremyzucker" ∧
    normalizeArtistName "JeremyZuckerVEVO" ≠ "jeremy zucker" := by
  constructor
  · decide
  · decide

/-! ## C6 — identifier fast path -/

/-- C6: if the source carries an ISRC and the identifier search returns at
least one candidate, `matchTrack` returns the first candidate with
confidence exactly 0.99 and status `matched`, with no fuzzy scoring (the
result does not depend on `fz`); if the identifier search returns an empty
list or throws, `matchTrack` is exactly the general path — the failure is
not surfaced. -/
theorem isrc_fast_path_authoritative {ε : Type} (fz : String → String → ℚ)
    (source : UnifiedTrack) (searchFn : String → Except ε (List UnifiedTrack))
    (config : MatchConfig) (code : String) (hi : source.isrc = some code) :
    (∀ t ts, searchFn code = .ok (t :: ts) →
      matchTrack fz source searchFn config =
        .ok { source := source, target := some t, confidence := 99/100,
              status := .matched }) ∧
    ((searchFn code = .ok [] ∨ ∃ e, searchFn code = .error e) →
      matchTrack fz source searchFn config =
        matchTrackGeneral fz source searchFn config) := by
  constructor
  · intro t ts h
    simp [matchTrack, hi, h]
  · rintro (h | ⟨e, h⟩) <;> simp [matchTrack, hi, h]

/-- Witness for C6 at concrete inputs (both conjuncts, fast-path hit and
fast-path miss). -/
theorem isrc_fast_path_authoritative_witness :
    matchTrack fzZero sampleIsrcSource searchHitFn cfgZeroWeights =
      .ok { source := sampleIsrcSource, target := some sampleCand,
            confidence := 99/100, status := .matched } :=
  (isrc_fast_path_authoritative fzZero sampleIsrcSource searchHitFn cfgZeroWeights
    "QZRR1" rfl).1 sampleCand [] rfl

/-! ## C7 — general-path search failures propagate -/

/-- C7: when no identifier fast path applies (no ISRC, or the identifier
search returns nothing or throws), a failure of the general-path search
call propagates out of `matchTrack` unchanged; it is not converted into a
status value. -/
theorem general_path_error_propagates {ε : Type} (fz : String → String → ℚ)
    (source : UnifiedTrack) (searchFn : String → Except ε (List UnifiedTrack))
    (config : MatchConfig) (e : ε)
    (hfast : ∀ code, source.isrc = some code →
      searchFn code = .ok [] ∨ ∃ e', searchFn code = .error e')
    (hq : searchFn (buildSearchQuery source) = .error e) :
    matchTrack fz source searchFn config = .error e := by
  cases hsrc : source.isrc with
  | none => simp [matchTrack, hsrc, matchTrackGeneral, hq]
  | some code =>
    rcases hfast code hsrc with h | ⟨e', h⟩ <;>
      simp [matchTrack, hsrc, h, matchTrackGeneral, hq]

/-- Witness for C7: a source without an ISRC and a search that always
throws. -/
theorem general_path_error_propagates_witness :
    matchTrack fzZero sampleSource searchErrFn cfgZeroWeights = .error () :=
  general_path_error_propagates fzZero sampleSource searchErrFn cfgZeroWeights ()
    (fun _ h => Option.noConfusion h) rfl

/-! ## C9 — zero candidates -/

/-- C9: when the general path is reached and the search returns zero
candidates, `matchTrack` returns exactly target `null`, confidence 0,
status `not_found`. -/
theorem zero_candidates_not_found {ε : Type} (fz : String → String → ℚ)
    (source : UnifiedTrack) (searchFn : String → Except ε (List UnifiedTrack))
    (config : MatchConfig)
    (hfast : ∀ code, source.isrc = some code →
      searchFn code = .ok [] ∨ ∃ e', searchFn code = .error e')
    (hq : searchFn (buildSearchQuery source) = .ok []) :
    matchTrack fz source searchFn config =
      .ok { source := source, target := none, confidence := 0,
            status := .not_found } := by
  have hgen : matchTrackGeneral fz source searchFn config =
      .ok { source := source, target := none, confidence := 0,
            status := MatchStatus.not_found } := by
    simp [matchTrackGeneral, hq, matchTrackCore]
  cases hsrc : source.isrc with
  | none => simp [matchTrack, hsrc, hgen]
  | some code =>
    rcases hfast code hsrc with h | ⟨e', h⟩ <;> simp [matchTrack, hsrc, h, hgen]

/-- Witness for C9: a search returning an empty candidate list. -/
theorem zero_candidates_not_found_witness :
    matchTrack fzZero sampleSource searchEmptyFn cfgZeroWeights =
      .ok { source := sampleSource, target := none, confidence := 0,
            status := .not_found } :=
  zero_candidates_not_found fzZero sampleSource searchEmptyFn cfgZeroWeights
    (fun _ h => Option.noConfusion h) rfl

/-! ## C10 — deduplication is idempotent -/

/-- The walk of `deduplicateResults` is idempotent for any starting
seen-set: statuses are only ever rewritten to `already_exists`, targets are
untouched, and a rewritten entry is rewritten identically on a second
pass. -/
theorem deduplicateGo_idem (seen : List String) (xs : List MatchResult) :
    deduplicateGo seen (deduplicateGo seen xs) = deduplicateGo seen xs := by
  induction xs generalizing seen with
  | nil => rfl
  | cons r rs ih =>
    cases ht : r.target with
    | none =>
      simp only [deduplicateGo, ht, ih]
    | some t =>
      by_cases hm : t.id ∈ seen
      · simp only [deduplicateGo, ht, if_pos hm, ih]
      · simp only [deduplicateGo, ht, if_neg hm, ih]

/-- C10: `deduplicateResults` is idempotent. -/
theorem deduplicateResults_idem (xs : List MatchResult) :
    deduplicateResults (deduplicateResults xs) = deduplicateResults xs :=
  deduplicateGo_idem [] xs


/-! ## C1 — how `already_exists` is assigned -/

/-- C1 (counterexample): `matchTrack` can return `not_found` with a non-null
target (a best match below the low threshold), and `deduplicateResults`
rewrites such a result to `already_exists` when an earlier result already
claimed the same target id — so a `not_found` result IS rewritten to
`already_exists`, contrary to the claim. -/
theorem notFound_rewritten_to_alreadyExists :
    mrNotFound.status = .not_found ∧ mrNotFound.target = some sampleCand ∧
    deduplicateResults [mrMatched, mrNotFound] =
      [mrMatched, { mrNotFound with status := .already_exists }] := by
  refine ⟨rfl, rfl, ?_⟩
  with_unfolding_all decide

/-- C1 (amended): `already_exists` is terminal (once a result has it,
neither pass changes it), is only ever assigned to a result whose target is
non-null, and both passes leave source, target and confidence untouched —
but the prior status may be any of `matched`, `low_confidence` or
`not_found`: a target-bearing `not_found` result can be escalated. -/
theorem alreadyExists_assignment_amended :
    (∀ results, List.Forall₂
      (fun r r' : MatchResult =>
        r'.source = r.source ∧ r'.target = r.target ∧ r'.confidence = r.confidence ∧
        (r'.status = r.status ∨ (r'.status = .already_exists ∧ r.target ≠ none)) ∧
        (r.status = .already_exists → r'.status = .already_exists))
      results (deduplicateResults results)) ∧
    (∀ existingIds r,
      (applyExistingOverride existingIds r).source = r.source ∧
      (applyExistingOverride existingIds r).target = r.target ∧
      (applyExistingOverride existingIds r).confidence = r.confidence ∧
      ((applyExistingOverride existingIds r).status = r.status ∨
        ((applyExistingOverride existingIds r).status = .already_exists ∧
          r.target ≠ none)) ∧
      (r.status = .already_exists →
        (applyExistingOverride existingIds r).status = .already_exists)) := by
  constructor
  · have go : ∀ (xs : List MatchResult) (seen : List String), List.Forall₂
        (fun r r' : MatchResult =>
          r'.source = r.source ∧ r'.target = r.target ∧ r'.confidence = r.confidence ∧
          (r'.status = r.status ∨ (r'.status = .already_exists ∧ r.target ≠ none)) ∧
          (r.status = .already_exists → r'.status = .already_exists))
        xs (deduplicateGo seen xs) := by
      intro xs
      induction xs with
      | nil => intro seen; exact .nil
      | cons r rs ih =>
        intro seen
        cases ht : r.target with
        | none =>
          have heq : deduplicateGo seen (r :: rs) = r :: deduplicateGo seen rs := by
            simp [deduplicateGo, ht]
          rw [heq]
          exact .cons ⟨rfl, rfl, rfl, Or.inl rfl, fun h => h⟩ (ih seen)
        | some t =>
          by_cases hm : t.id ∈ seen
          · have heq : deduplicateGo seen (r :: rs) =
                { r with status := .already_exists } :: deduplicateGo seen rs := by
              simp [deduplicateGo, ht, hm]
            rw [heq]
            exact .cons ⟨rfl, rfl, rfl, Or.inr ⟨rfl, by simp [ht]⟩, fun _ => rfl⟩ (ih seen)
          · have heq : deduplicateGo seen (r :: rs) =
                r :: deduplicateGo (t.id :: seen) rs := by
              simp [deduplicateGo, ht, hm]
            rw [heq]
            exact .cons ⟨rfl, rfl, rfl, Or.inl rfl, fun h => h⟩ (ih (t.id :: seen))
    exact fun results => go results []
  · intro existingIds r
    cases ht : r.target with
    | none =>
      have heq : applyExistingOverride existingIds r = r := by
        simp [applyExistingOverride, ht]
      rw [heq]
      exact ⟨rfl, ht, rfl, Or.inl rfl, fun h => h⟩
    | some t =>
      by_cases hm : t.id ∈ existingIds
      · have heq : applyExistingOverride existingIds r =
            { r with status := .already_exists, existingId := some t.id } := by
          simp [applyExistingOverride, ht, hm]
        rw [heq]
        exact ⟨rfl, ht, rfl, Or.inr ⟨rfl, by simp⟩, fun _ => rfl⟩
      · have heq : applyExistingOverride existingIds r = r := by
          simp [applyExistingOverride, ht, hm]
        rw [heq]
        exact ⟨rfl, ht, rfl, Or.inl rfl, fun h => h⟩

/-! ## C4 — AI matcher failure handling -/

/-- C4 (counterexample): a parsed response whose `bestMatchIndex` is out of
range (5 against a single candidate) is NOT treated like a thrown failure:
`callGeminiAPI` returns a null match with the parsed confidence, not the
first candidate with confidence 0.3 as the claim requires. -/
theorem gemini_invalid_index_not_fallback :
    callGeminiAPI [sampleCand] (.parsed 5 (some (7/10))) = (none, 7/10) ∧
    callGeminiAPI [sampleCand] (.parsed 5 (some (7/10))) ≠ (some sampleCand, 3/10) := by
  constructor
  · with_unfolding_all decide
  · with_unfolding_all decide

/-- C4 (amended): `callGeminiAPI` never throws.  On any failure that throws
inside its `try` block — network error, non-OK HTTP response, unparsable
body, no JSON object in the model text, malformed JSON — it returns the
first candidate (if any) with confidence fixed at 0.3; but a parsed
`bestMatchIndex` that is neither -1 nor a valid index is handled by the
in-range validation instead, producing a null match with the parsed
confidence (or 0), not the 0.3 first-candidate fallback. -/
theorem gemini_fallback_amended :
    (∀ (candidates : List UnifiedTrack) (o : GeminiOutcome),
      o.isThrownFailure = true →
      callGeminiAPI candidates o = (candidates.head?, 3/10)) ∧
    (∀ (candidates : List UnifiedTrack) (i : Int) (conf : Option ℚ),
      (i = -1 ∨ i < 0 ∨ (candidates.length : ℤ) ≤ i) →
      callGeminiAPI candidates (.parsed i conf) = (none, conf.getD 0)) := by
  constructor
  · intro cs o h
    cases o <;> simp_all [callGeminiAPI, GeminiOutcome.isThrownFailure]
  · intro cs i conf h
    simp [callGeminiAPI, h]


/-! ## C5 — worker thread vs sequential path -/

/-- The two scoring loops are the same computation, transcribed once from
matcher.ts and once from matcher.worker.ts. -/
theorem workerBestOf_eq_bestOf : workerBestOf = bestOf := rfl

/-- C5 (counterexample): on a below-threshold best match whose id is
already in the destination, the sequential path reports `already_exists`
while the worker reports `not_found` — the two paths agree on target and
confidence but not on status. -/
theorem worker_vs_sequential_status_mismatch :
    (workerOnMessage fzZero sampleSource [sampleCand] cfgZeroWeights ["tgt1"]).target =
      (seqResult fzZero sampleSource [sampleCand] cfgZeroWeights ["tgt1"]).target ∧
    (workerOnMessage fzZero sampleSource [sampleCand] cfgZeroWeights ["tgt1"]).confidence =
      (seqResult fzZero sampleSource [sampleCand] cfgZeroWeights ["tgt1"]).confidence ∧
    (workerOnMessage fzZero sampleSource [sampleCand] cfgZeroWeights ["tgt1"]).status =
      .not_found ∧
    (seqResult fzZero sampleSource [sampleCand] cfgZeroWeights ["tgt1"]).status =
      .already_exists := by
  refine ⟨?_, ?_, ?_, ?_⟩ <;> with_unfolding_all decide

/-- C5 (amended): for the same source, candidate list, config and existing
ids, the worker and the sequential path (core matcher plus existing-id
override) produce the same target, confidence and status — except in the
one diverging case, excluded by the hypothesis: a result that the core
classifies `not_found` while its (non-null) target id is among the existing
ids, which the sequential override escalates to `already_exists` but the
worker leaves `not_found`. -/
theorem worker_matches_sequential_amended (fz : String → String → ℚ)
    (source : UnifiedTrack) (candidates : List UnifiedTrack) (config : MatchConfig)
    (existingIds : List String)
    (h : ∀ t, (matchTrackCore fz source candidates config).status = .not_found →
      (matchTrackCore fz source candidates config).target = some t →
      t.id ∉ existingIds) :
    (workerOnMessage fz source candidates config existingIds).target =
      (seqResult fz source candidates config existingIds).target ∧
    (workerOnMessage fz source candidates config existingIds).confidence =
      (seqResult fz source candidates config existingIds).confidence ∧
    (workerOnMessage fz source candidates config existingIds).status =
      (seqResult fz source candidates config existingIds).status := by
  have hwb : workerBestOf fz source config candidates =
      bestOf fz source config candidates := by rw [workerBestOf_eq_bestOf]
  by_cases hemp : candidates.isEmpty
  · simp [workerOnMessage, seqResult, matchTrackCore, applyExistingOverride, hemp]
  · rcases hb : bestOf fz source config candidates with ⟨bm, bs⟩
    cases bm with
    | none =>
      simp [workerOnMessage, seqResult, matchTrackCore, applyExistingOverride,
        hemp, hwb, hb]
    | some t =>
      by_cases hlow : bs < config.lowConfidenceThreshold
      · have hnotin : t.id ∉ existingIds := by
          apply h t
          · simp [matchTrackCore, hemp, hb, hlow]
          · simp [matchTrackCore, hemp, hb, hlow]
        simp [workerOnMessage, seqResult, matchTrackCore, applyExistingOverride,
          hemp, hwb, hb, hlow, not_le.2 hlow, hnotin]
      · by_cases hex : t.id ∈ existingIds
        · simp [workerOnMessage, seqResult, matchTrackCore, applyExistingOverride,
            hemp, hwb, hb, hlow, not_lt.1 hlow, hex]
        · by_cases hhigh : config.highConfidenceThreshold ≤ bs <;>
            simp [workerOnMessage, seqResult, matchTrackCore, applyExistingOverride,
              hemp, hwb, hb, hlow, not_lt.1 hlow, hex, hhigh]

/-- Witness for C5 at concrete inputs (empty existing-id set, so the
diverging case is excluded). -/
theorem worker_matches_sequential_amended_witness :
    (workerOnMessage fzZero sampleSource [sampleCand] cfgZeroWeights []).target =
      (seqResult fzZero sampleSource [sampleCand] cfgZeroWeights []).target ∧
    (workerOnMessage fzZero sampleSource [sampleCand] cfgZeroWeights []).confidence =
      (seqResult fzZero sampleSource [sampleCand] cfgZeroWeights []).confidence ∧
    (workerOnMessage fzZero sampleSource [sampleCand] cfgZeroWeights []).status =
      (seqResult fzZero sampleSource [sampleCand] cfgZeroWeights []).status :=
  worker_matches_sequential_amended fzZero sampleSource [sampleCand] cfgZeroWeights []
    (fun t _ _ => List.not_mem_nil t.id)

/-! ## C8 — composite score bounds -/

/-- C8 (counterexample): the claim constrains only the three weights, but a
`MatchConfig` with a negative duration tolerance (and admissible weights)
makes the duration term exceed 1 — with different titles so the 0.99 clamp
is never applied, the composite score exceeds 1. -/
theorem score_exceeds_one_with_negative_tolerance :
    (0 ≤ cfgNegTol.titleWeight ∧ 0 ≤ cfgNegTol.artistWeight ∧
      0 ≤ cfgNegTol.durationWeight ∧
      cfgNegTol.titleWeight + cfgNegTol.artistWeight + cfgNegTol.durationWeight ≤ 1) ∧
    1 < scoreCandidate fzZero sampleSource sampleCandB cfgNegTol := by
  constructor
  · refine ⟨?_, ?_, ?_, ?_⟩ <;> with_unfolding_all decide
  · with_unfolding_all decide

/-- Bounds for the (zeta-expanded) score expression of the matcher loop,
over abstract title/artist similarities, duration quotient and weights. -/
theorem scoreExpr_bounds (c1 c2 : Prop) [Decidable c1] [Decidable c2]
    (f g dq tw aw dw : ℚ)
    (hf1 : 0 ≤ f) (hf2 : f ≤ 1) (hg1 : 0 ≤ g) (hg2 : g ≤ 1) (hdq : 0 ≤ dq)
    (htw : 0 ≤ tw) (haw : 0 ≤ aw) (hdw : 0 ≤ dw) (hsum : tw + aw + dw ≤ 1) :
    0 ≤ (if c1 ∧ c2 then
          min (99/100)
            ((if c1 then max f (98/100) else f) * tw +
              (if c2 then max g (98/100) else g) * aw +
              max 0 (1 - dq) * dw + 10/100)
        else
          (if c1 then max f (98/100) else f) * tw +
            (if c2 then max g (98/100) else g) * aw +
            max 0 (1 - dq) * dw) ∧
      (if c1 ∧ c2 then
          min (99/100)
            ((if c1 then max f (98/100) else f) * tw +
              (if c2 then max g (98/100) else g) * aw +
              max 0 (1 - dq) * dw + 10/100)
        else
          (if c1 then max f (98/100) else f) * tw +
            (if c2 then max g (98/100) else g) * aw +
            max 0 (1 - dq) * dw) ≤ 1 := by
  have hTS : 0 ≤ (if c1 then max f (98/100) else f) ∧
      (if c1 then max f (98/100) else f) ≤ 1 := by
    split
    · exact ⟨le_trans hf1 (le_max_left _ _), max_le hf2 (by norm_num)⟩
    · exact ⟨hf1, hf2⟩
  have hAS : 0 ≤ (if c2 then max g (98/100) else g) ∧
      (if c2 then max g (98/100) else g) ≤ 1 := by
    split
    · exact ⟨le_trans hg1 (le_max_left _ _), max_le hg2 (by norm_num)⟩
    · exact ⟨hg1, hg2⟩
  have hDS : 0 ≤ max 0 (1 - dq) ∧ max 0 (1 - dq) ≤ 1 :=
    ⟨le_max_left _ _, max_le (by norm_num) (by linarith)⟩
  set X := if c1 then max f (98/100) else f with hX
  set Y := if c2 then max g (98/100) else g with hY
  set D := max 0 (1 - dq) with hD
  have hXt : X * tw ≤ tw := mul_le_of_le_one_left htw hTS.2
  have hYa : Y * aw ≤ aw := mul_le_of_le_one_left haw hAS.2
  have hDd : D * dw ≤ dw := mul_le_of_le_one_left hdw hDS.2
  have hXt0 : 0 ≤ X * tw := mul_nonneg hTS.1 htw
  have hYa0 : 0 ≤ Y * aw := mul_nonneg hAS.1 haw
  have hDd0 : 0 ≤ D * dw := mul_nonneg hDS.1 hdw
  split
  · constructor
    · exact le_min (by norm_num) (by linarith)
    · exact le_trans (min_le_left _ _) (by norm_num)
  · constructor
    · linarith
    · linarith

set_option maxHeartbeats 1000000 in
/-- C8 (amended): with non-negative weights summing to at most 1, a fuzzy
primitive valued in [0,1], and a positive duration tolerance (the condition
the counterexample forces), the composite score — including the 0.98 exact
floors, the duration term and the clamped both-exact bonus — lies in
[0,1], for all tracks including zero-duration and empty-string ones. -/
theorem score_bounds_amended (fz : String → String → ℚ)
    (source candidate : UnifiedTrack) (config : MatchConfig)
    (hfz : ∀ a b, 0 ≤ fz a b ∧ fz a b ≤ 1)
    (htw : 0 ≤ config.titleWeight) (haw : 0 ≤ config.artistWeight)
    (hdw : 0 ≤ config.durationWeight)
    (hsum : config.titleWeight + config.artistWeight + config.durationWeight ≤ 1)
    (htol : 0 < config.durationToleranceMs) :
    0 ≤ scoreCandidate fz source candidate config ∧
      scoreCandidate fz source candidate config ≤ 1 := by
  obtain ⟨hf1, hf2⟩ := hfz (normalizeTrackTitle source.title)
    (normalizeTrackTitle candidate.title)
  obtain ⟨hg1, hg2⟩ := hfz (normalizeArtistName source.artist)
    (normalizeArtistName candidate.artist)
  have hdq : 0 ≤ |source.durationMs - candidate.durationMs| /
      (config.durationToleranceMs * 3) :=
    div_nonneg (abs_nonneg _) (by positivity)
  simp only [scoreCandidate]
  exact scoreExpr_bounds _ _ _ _ _ _ _ _ hf1 hf2 hg1 hg2 hdq htw haw hdw hsum

/-- Witness for C8 with the default configuration and concrete tracks. -/
theorem score_bounds_amended_witness :
    0 ≤ scoreCandidate fzZero sampleSource sampleCandB DEFAULT_MATCH_CONFIG ∧
      scoreCandidate fzZero sampleSource sampleCandB DEFAULT_MATCH_CONFIG ≤ 1 :=
  score_bounds_amended fzZero sampleSource sampleCandB DEFAULT_MATCH_CONFIG
    (fun _ _ => ⟨le_refl 0, by norm_num [fzZero]⟩)
    (by norm_num [DEFAULT_MATCH_CONFIG]) (by norm_num [DEFAULT_MATCH_CONFIG])
    (by norm_num [DEFAULT_MATCH_CONFIG]) (by norm_num [DEFAULT_MATCH_CONFIG])
    (by norm_num [DEFAULT_MATCH_CONFIG])


/-! ## C2 — normalization idempotence: supporting lemmas -/

/-- Membership lemmas: every pass only keeps input characters or inserts
characters of its replacement. -/

theorem mem_replaceAllGo {t : List Char → Option Nat} {repl : List Char} :
    ∀ (fuel : Nat) (l : List Char) (a : Char), a ∈ replaceAllGo t repl fuel l →
      a ∈ l ∨ a ∈ repl := by
  intro fuel
  induction fuel with
  | zero =>
    intro l a h
    cases l with
    | nil => simp [replaceAllGo] at h
    | cons c cs => exact Or.inl (by simpa [replaceAllGo] using h)
  | succ fuel ih =>
    intro l a h
    cases l with
    | nil => simp [replaceAllGo] at h
    | cons c cs =>
      rw [replaceAllGo] at h
      cases htm : t (c :: cs) with
      | none =>
        simp only [htm] at h
        rcases List.mem_cons.1 h with h | h
        · exact Or.inl (h ▸ List.mem_cons_self c cs)
        · rcases ih cs a h with h' | h'
          · exact Or.inl (List.mem_cons_of_mem c h')
          · exact Or.inr h'
      | some n =>
        simp only [htm] at h
        by_cases hn : 0 < n
        · rw [if_pos hn] at h
          rcases List.mem_append.1 h with h | h
          · exact Or.inr h
          · rcases ih _ a h with h' | h'
            · exact Or.inl (List.drop_subset n (c :: cs) h')
            · exact Or.inr h'
        · rw [if_neg hn] at h
          rcases List.mem_append.1 h with h | h
          · exact Or.inr h
          · rcases List.mem_cons.1 h with h | h
            · exact Or.inl (h ▸ List.mem_cons_self c cs)
            · rcases ih cs a h with h' | h'
              · exact Or.inl (List.mem_cons_of_mem c h')
              · exact Or.inr h'

theorem mem_replaceAll {t : List Char → Option Nat} {repl l : List Char} {a : Char}
    (h : a ∈ replaceAll t repl l) : a ∈ l ∨ a ∈ repl :=
  mem_replaceAllGo l.length l a h

theorem mem_collapseWsGo :
    ∀ (b : Bool) (l : List Char) (a : Char), a ∈ collapseWsGo b l → a ∈ l ∨ a = ' ' := by
  intro b l
  induction l generalizing b with
  | nil => intro a h; simp [collapseWsGo] at h
  | cons c cs ih =>
    intro a h
    rw [collapseWsGo] at h
    by_cases hw : isJsWs c
    · rw [if_pos hw] at h
      by_cases hb : b
      · rw [if_pos hb] at h
        rcases ih true a h with h' | h'
        · exact Or.inl (List.mem_cons_of_mem c h')
        · exact Or.inr h'
      · rw [if_neg hb] at h
        rcases List.mem_cons.1 h with h | h
        · exact Or.inr h
        · rcases ih true a h with h' | h'
          · exact Or.inl (List.mem_cons_of_mem c h')
          · exact Or.inr h'
    · rw [if_neg hw] at h
      rcases List.mem_cons.1 h with h | h
      · exact Or.inl (h ▸ List.mem_cons_self c cs)
      · rcases ih false a h with h' | h'
        · exact Or.inl (List.mem_cons_of_mem c h')
        · exact Or.inr h'

theorem mem_camelSplit :
    ∀ (l : List Char) (a : Char), a ∈ camelSplit l → a ∈ l ∨ a = ' ' := by
  intro l
  induction l using camelSplit.induct with
  | case1 => intro a h; simp [camelSplit] at h
  | case2 c => intro a h; simp [camelSplit] at h; exact Or.inl (by simp [h])
  | case3 c1 c2 rest hcond ih =>
    intro a h
    rw [camelSplit, if_pos hcond] at h
    rcases List.mem_cons.1 h with h | h
    · exact Or.inl (by simp [h])
    · rcases List.mem_cons.1 h with h | h
      · exact Or.inr h
      · rcases List.mem_cons.1 h with h | h
        · exact Or.inl (by simp [h])
        · rcases ih a h with h' | h'
          · exact Or.inl (by simp [List.mem_cons_of_mem, h'])
          · exact Or.inr h'
  | case4 c1 c2 rest hcond ih =>
    intro a h
    rw [camelSplit, if_neg hcond] at h
    rcases List.mem_cons.1 h with h | h
    · exact Or.inl (by simp [h])
    · rcases ih a h with h' | h'
      · exact Or.inl (List.mem_cons_of_mem c1 h')
      · exact Or.inr h'


/-- A global replace whose pattern matches at no suffix position is the
identity. -/
theorem replaceAllGo_eq_self {t : List Char → Option Nat} {repl : List Char} :
    ∀ (fuel : Nat) (l : List Char),
      (∀ c cs, (c :: cs) <:+ l → t (c :: cs) = none) →
      replaceAllGo t repl fuel l = l := by
  intro fuel
  induction fuel with
  | zero => intro l _; cases l <;> rfl
  | succ fuel ih =>
    intro l hno
    cases l with
    | nil => rfl
    | cons c cs =>
      rw [replaceAllGo]
      rw [hno c cs (List.suffix_refl _)]
      have : replaceAllGo t repl fuel cs = cs :=
        ih cs (fun d ds hsuf => hno d ds (hsuf.trans (List.suffix_cons c cs)))
      rw [this]

theorem replaceAll_eq_self {t : List Char → Option Nat} {repl l : List Char}
    (hno : ∀ c cs, (c :: cs) <:+ l → t (c :: cs) = none) :
    replaceAll t repl l = l :=
  replaceAllGo_eq_self l.length l hno

/-- A separator pattern matches at the separator itself when the separator
is not whitespace. -/
theorem trySepChar_self {sep : Char} (hsep : isJsWs sep = false) (cs : List Char) :
    trySepChar sep (sep :: cs) = some (0 + 1 + countWhile isJsWs cs) := by
  have h0 : countWhile isJsWs (sep :: cs) = 0 := by
    rw [countWhile, if_neg (by simp [hsep])]
  simp only [trySepChar, h0, List.drop_zero]
  rw [if_pos (by simp)]

/-- A separator match always contains the separator character. -/
theorem trySepChar_imp_mem {sep : Char} {l : List Char} {n : Nat}
    (h : trySepChar sep l = some n) : sep ∈ l := by
  simp only [trySepChar] at h
  cases hd : List.drop (countWhile isJsWs l) l with
  | nil => rw [hd] at h; exact absurd h (by simp)
  | cons c r1 =>
    simp only [hd] at h
    by_cases hc : c == sep
    · have : c ∈ l := List.drop_subset _ l (hd ▸ List.mem_cons_self c r1)
      exact (eq_of_beq hc) ▸ this
    · rw [if_neg hc] at h
      exact absurd h (by simp)

/-- The separator passes remove every occurrence of their separator
(provided the separator is not whitespace and not in the replacement). -/
theorem sep_not_mem_replaceAllGo {sep : Char} {repl : List Char}
    (hsep : isJsWs sep = false) (hrep : sep ∉ repl) :
    ∀ (fuel : Nat) (l : List Char), l.length ≤ fuel →
      sep ∉ replaceAllGo (trySepChar sep) repl fuel l := by
  intro fuel
  induction fuel with
  | zero =>
    intro l hl
    cases l with
    | nil => simp [replaceAllGo]
    | cons c cs => simp at hl
  | succ fuel ih =>
    intro l hl
    cases l with
    | nil => simp [replaceAllGo]
    | cons c cs =>
      cases htm : trySepChar sep (c :: cs) with
      | none =>
        rw [replaceAllGo]
        simp only [htm]
        intro hmem
        rcases List.mem_cons.1 hmem with h | h
        · rw [show c = sep from h.symm] at htm
          rw [trySepChar_self hsep cs] at htm
          exact absurd htm (by simp)
        · exact ih cs (by simp at hl; omega) h
      | some n =>
        have hn : 0 < n := by
          simp only [trySepChar] at htm
          cases hd : List.drop (countWhile isJsWs (c :: cs)) (c :: cs) with
          | nil => rw [hd] at htm; exact absurd htm (by simp)
          | cons d r1 =>
            simp only [hd] at htm
            by_cases hdc : d == sep
            · rw [if_pos hdc] at htm
              have := Option.some.inj htm
              omega
            · rw [if_neg hdc] at htm; exact absurd htm (by simp)
        rw [replaceAllGo]
        simp only [htm, if_pos hn]
        intro hmem
        rcases List.mem_append.1 hmem with h | h
        · exact hrep h
        · have hlen : ((c :: cs).drop n).length ≤ fuel := by
            simp [List.length_drop] at *
            omega
          exact ih _ hlen h

/-- The camelCase split is the identity on strings with no upper-case
ASCII letter. -/
theorem camelSplit_eq_self :
    ∀ (l : List Char), (∀ a ∈ l, a.isUpper = false) → camelSplit l = l := by
  intro l
  induction l using camelSplit.induct with
  | case1 => intro _; rfl
  | case2 c => intro _; rfl
  | case3 c1 c2 rest hcond ih =>
    intro h
    exfalso
    have h2 := h c2 (by simp)
    rw [h2] at hcond
    simp at hcond
  | case4 c1 c2 rest hcond ih =>
    intro h
    rw [camelSplit, if_neg hcond]
    have : camelSplit (c2 :: rest) = c2 :: rest :=
      ih (fun a ha => h a (List.mem_cons_of_mem c1 ha))
    rw [this]

/-- Pointwise identity gives map identity. -/
theorem map_eq_self_of_forall {f : Char → Char} :
    ∀ (l : List Char), (∀ a ∈ l, f a = a) → l.map f = l := by
  intro l
  induction l with
  | nil => intro _; rfl
  | cons c cs ih =>
    intro h
    rw [List.map_cons, h c (by simp), ih (fun a ha => h a (by simp [ha]))]


/-- Whitespace-canonical: every whitespace character is a single space and
no two adjacent characters are both whitespace. -/
def WsCanonical (l : List Char) : Prop :=
  (∀ a ∈ l, isJsWs a = true → a = ' ') ∧
    List.Chain' (fun x y => ¬(isJsWs x = true ∧ isJsWs y = true)) l

theorem collapseWsGo_true_head :
    ∀ (l : List Char) (h : Char), (collapseWsGo true l).head? = some h →
      isJsWs h = false := by
  intro l
  induction l with
  | nil => intro h hh; simp [collapseWsGo] at hh
  | cons c cs ih =>
    intro h hh
    rw [collapseWsGo] at hh
    by_cases hw : isJsWs c
    · rw [if_pos hw, if_pos rfl] at hh
      exact ih h hh
    · rw [if_neg hw] at hh
      simp at hh
      rw [← hh]
      cases hb : isJsWs c
      · rfl
      · exact absurd hb hw

theorem collapseWsGo_canonical : ∀ (l : List Char) (b : Bool),
    WsCanonical (collapseWsGo b l) := by
  intro l
  induction l with
  | nil =>
    intro b
    constructor
    · intro a ha; simp [collapseWsGo] at ha
    · simp [collapseWsGo]
  | cons c cs ih =>
    intro b
    rw [collapseWsGo]
    by_cases hw : isJsWs c
    · rw [if_pos hw]
      by_cases hb : b
      · rw [if_pos hb]; exact ih true
      · rw [if_neg hb]
        obtain ⟨ihall, ihch⟩ := ih true
        constructor
        · intro a ha hwa
          rcases List.mem_cons.1 ha with h | h
          · exact h
          · exact ihall a h hwa
        · rw [List.chain'_cons']
          refine ⟨?_, ihch⟩
          intro y hy
          intro ⟨_, hy2⟩
          have := collapseWsGo_true_head cs y hy
          rw [this] at hy2
          exact Bool.false_ne_true hy2
    · rw [if_neg hw]
      obtain ⟨ihall, ihch⟩ := ih false
      constructor
      · intro a ha hwa
        rcases List.mem_cons.1 ha with h | h
        · exact absurd (h ▸ hwa) hw
        · exact ihall a h hwa
      · rw [List.chain'_cons']
        refine ⟨?_, ihch⟩
        intro y _
        intro ⟨hc1, _⟩
        exact hw (by simp [hc1])

theorem collapseWsGo_false_eq_self :
    ∀ (l : List Char), WsCanonical l → collapseWsGo false l = l := by
  intro l
  induction l with
  | nil => intro _; rfl
  | cons c cs ih =>
    intro ⟨hall, hch⟩
    rw [collapseWsGo]
    by_cases hw : isJsWs c
    · rw [if_pos hw, if_neg Bool.false_ne_true]
      have hc : c = ' ' := hall c (by simp) hw
      rw [List.chain'_cons'] at hch
      cases cs with
      | nil => rw [hc]; rfl
      | cons d ds =>
        have hd : isJsWs d = false := by
          have := hch.1 d rfl
          by_contra hcon
          have hd' : isJsWs d = true := by
            cases hb : isJsWs d
            · exact absurd hb hcon
            · rfl
          exact this ⟨hw, hd'⟩
        have heq : collapseWsGo true (d :: ds) = collapseWsGo false (d :: ds) := by
          rw [collapseWsGo, collapseWsGo, if_neg (by simp [hd]), if_neg (by simp [hd])]
        rw [hc, heq]
        have : collapseWsGo false (d :: ds) = d :: ds :=
          ih ⟨fun a ha hwa => hall a (List.mem_cons_of_mem c ha) hwa, hch.2⟩
        rw [this]
    · rw [if_neg hw]
      rw [List.chain'_cons'] at hch
      have : collapseWsGo false cs = cs :=
        ih ⟨fun a ha hwa => hall a (List.mem_cons_of_mem c ha) hwa, hch.2⟩
      rw [this]


theorem mem_dropEndWhile {p : Char → Bool} {l : List Char} {a : Char}
    (h : a ∈ dropEndWhile p l) : a ∈ l := by
  unfold dropEndWhile at h
  rw [List.mem_reverse] at h
  have := (List.dropWhile_sublist (l := l.reverse) p).subset h
  rwa [List.mem_reverse] at this

theorem mem_trimWs {l : List Char} {a : Char} (h : a ∈ trimWs l) : a ∈ l := by
  unfold trimWs at h
  exact (List.dropWhile_sublist _).subset (mem_dropEndWhile h)

theorem dropWhile_head_false {p : Char → Bool} :
    ∀ (l : List Char) (h : Char), (l.dropWhile p).head? = some h → p h = false := by
  intro l
  induction l with
  | nil => intro h hh; simp at hh
  | cons c cs ih =>
    intro h hh
    rw [List.dropWhile_cons] at hh
    split at hh
    · exact ih h hh
    · next hc =>
      simp at hh
      rw [← hh]
      cases hb : p c
      · rfl
      · exact absurd hb hc

theorem dropWhile_decomp {p : Char → Bool} :
    ∀ l : List Char, ∃ u : List Char, l = u ++ l.dropWhile p := by
  intro l
  induction l with
  | nil => exact ⟨[], rfl⟩
  | cons c cs ih =>
    by_cases hp : p c
    · obtain ⟨u, hu⟩ := ih
      refine ⟨c :: u, ?_⟩
      rw [List.dropWhile_cons_of_pos hp, List.cons_append, ← hu]
    · refine ⟨[], ?_⟩
      rw [List.dropWhile_cons_of_neg hp, List.nil_append]

theorem head?_append_left {l r : List Char} (h : l ≠ []) :
    (l ++ r).head? = l.head? := by
  cases l with
  | nil => exact absurd rfl h
  | cons c cs => rfl

theorem trimWs_head_false (l : List Char) (h : Char)
    (hh : (trimWs l).head? = some h) : isJsWs h = false := by
  unfold trimWs dropEndWhile at hh
  obtain ⟨u, hu⟩ := dropWhile_decomp (p := isJsWs) ((l.dropWhile isJsWs).reverse)
  have hsne : ((l.dropWhile isJsWs).reverse.dropWhile isJsWs).reverse ≠ [] := by
    intro he; rw [he] at hh; simp at hh
  have hmdec : l.dropWhile isJsWs =
      ((l.dropWhile isJsWs).reverse.dropWhile isJsWs).reverse ++ u.reverse := by
    have := congrArg List.reverse hu
    rwa [List.reverse_reverse, List.reverse_append] at this
  have hmh : (l.dropWhile isJsWs).head? = some h := by
    rw [hmdec, head?_append_left hsne, hh]
  exact dropWhile_head_false l h hmh

theorem trimWs_getLast_false (l : List Char) (h : Char)
    (hh : (trimWs l).getLast? = some h) : isJsWs h = false := by
  unfold trimWs dropEndWhile at hh
  rw [List.getLast?_reverse] at hh
  exact dropWhile_head_false _ h hh

theorem trimWs_eq_self {l : List Char}
    (h1 : ∀ h, l.head? = some h → isJsWs h = false)
    (h2 : ∀ h, l.getLast? = some h → isJsWs h = false) :
    trimWs l = l := by
  cases l with
  | nil => rfl
  | cons c cs =>
    unfold trimWs
    have hcd : (c :: cs).dropWhile isJsWs = c :: cs :=
      List.dropWhile_cons_of_neg (by simp [h1 c rfl])
    rw [hcd]
    unfold dropEndWhile
    cases hrev : (c :: cs).reverse with
    | nil => exact absurd hrev (by simp)
    | cons d ds =>
      have hd : isJsWs d = false := by
        apply h2 d
        have hhead : (c :: cs).reverse.head? = some d := by rw [hrev]; rfl
        rwa [List.head?_reverse] at hhead
      have hstep : List.dropWhile isJsWs (d :: ds) = d :: ds :=
        List.dropWhile_cons_of_neg (by simp [hd])
      rw [hstep, ← hrev, List.reverse_reverse]

theorem chain'_dropWhile {R : Char → Char → Prop} {p : Char → Bool} :
    ∀ (l : List Char), List.Chain' R l → List.Chain' R (l.dropWhile p) := by
  intro l h
  induction l with
  | nil => simpa using h
  | cons c cs ih =>
    rw [List.dropWhile_cons]
    split
    · exact ih h.tail
    · exact h

theorem wsCanonical_reverse {l : List Char} (h : WsCanonical l) :
    WsCanonical l.reverse := by
  obtain ⟨hall, hch⟩ := h
  refine ⟨fun a ha hwa => hall a (List.mem_reverse.1 ha) hwa, ?_⟩
  rw [List.chain'_reverse]
  exact hch.imp (fun a b hab hx => hab ⟨hx.2, hx.1⟩)

theorem wsCanonical_dropWhile {p : Char → Bool} {l : List Char} (h : WsCanonical l) :
    WsCanonical (l.dropWhile p) :=
  ⟨fun a ha hwa => h.1 a ((List.dropWhile_sublist _).subset ha) hwa,
    chain'_dropWhile l h.2⟩

theorem wsCanonical_trimWs {l : List Char} (h : WsCanonical l) :
    WsCanonical (trimWs l) := by
  unfold trimWs dropEndWhile
  exact wsCanonical_reverse (wsCanonical_dropWhile (wsCanonical_reverse
    (wsCanonical_dropWhile h)))

/-- The collapse-then-trim tail of the normalizers is idempotent. -/
theorem trim_collapse_fixed (w : List Char) :
    trimWs (collapseWs (trimWs (collapseWs w))) = trimWs (collapseWs w) := by
  have hcan : WsCanonical (trimWs (collapseWs w)) :=
    wsCanonical_trimWs (collapseWsGo_canonical w false)
  have h1 : collapseWs (trimWs (collapseWs w)) = trimWs (collapseWs w) :=
    collapseWsGo_false_eq_self _ hcan
  rw [h1]
  exact trimWs_eq_self (fun h hh => trimWs_head_false _ h hh)
    (fun h hh => trimWs_getLast_false _ h hh)


/-- Valid code points below the surrogate range round-trip through
`Char.ofNat`. -/
theorem charToNat_ofNat_lt {n : Nat} (h : n < 0xd800) : (Char.ofNat n).toNat = n := by
  have hv : n.isValidChar := Or.inl h
  simp [Char.ofNat, hv, Char.ofNatAux, Char.toNat, UInt32.toNat]

/-- ASCII lowercasing is idempotent. -/
theorem toLower_toLower (c : Char) : c.toLower.toLower = c.toLower := by
  unfold Char.toLower
  by_cases h : c.toNat ≥ 65 ∧ c.toNat ≤ 90
  · rw [if_pos h]
    have h2 : (Char.ofNat (c.toNat + 32)).toNat = c.toNat + 32 :=
      charToNat_ofNat_lt (by omega)
    rw [if_neg (by omega)]
  · rw [if_neg h, if_neg h]

theorem isUpper_toNat {c : Char} (h : c.isUpper = true) :
    65 ≤ c.toNat ∧ c.toNat ≤ 90 := by
  simp [Char.isUpper] at h
  exact ⟨h.1, h.2⟩

/-- A character fixed by lowercasing is not an upper-case ASCII letter. -/
theorem isUpper_false_of_toLower_eq {c : Char} (h : c.toLower = c) :
    c.isUpper = false := by
  by_contra hc
  have hu : c.isUpper = true := by
    cases hb : c.isUpper
    · exact absurd hb hc
    · rfl
  obtain ⟨h1, h2⟩ := isUpper_toNat hu
  have := congrArg Char.toNat h
  rw [Char.toLower, if_pos ⟨h1, h2⟩] at this
  rw [charToNat_ofNat_lt (by omega)] at this
  omega

/-- Every character of a title-removal output is a character of the
input. -/
theorem mem_titleRemovalsL {l : List Char} {a : Char}
    (h : a ∈ titleRemovalsL l) : a ∈ l := by
  simp only [titleRemovalsL] at h
  have h9 := (mem_replaceAll h).resolve_right (List.not_mem_nil a)
  have h8 := (mem_replaceAll h9).resolve_right (List.not_mem_nil a)
  have h7 := (mem_replaceAll h8).resolve_right (List.not_mem_nil a)
  have h6 := (mem_replaceAll h7).resolve_right (List.not_mem_nil a)
  have h5 := (mem_replaceAll h6).resolve_right (List.not_mem_nil a)
  have h4 := (mem_replaceAll h5).resolve_right (List.not_mem_nil a)
  have h3 := (mem_replaceAll h4).resolve_right (List.not_mem_nil a)
  have h2 := (mem_replaceAll h3).resolve_right (List.not_mem_nil a)
  have h1 := (mem_replaceAll h2).resolve_right (List.not_mem_nil a)
  exact (mem_replaceAll h1).resolve_right (List.not_mem_nil a)

/-- Pointwise stability of the image characters of the title pipeline. -/
theorem titleStable_image (d : Char) :
    Char.toLower (quoteChar (aposChar d.toLower)) = quoteChar (aposChar d.toLower) ∧
    aposChar (quoteChar (aposChar d.toLower)) = quoteChar (aposChar d.toLower) ∧
    quoteChar (quoteChar (aposChar d.toLower)) = quoteChar (aposChar d.toLower) := by
  by_cases h1 : (d.toLower.toNat == 0x2018 || d.toLower.toNat == 0x2019) = true
  · have ha : aposChar d.toLower = '\'' := by rw [aposChar, if_pos h1]
    rw [ha]
    refine ⟨?_, ?_, ?_⟩ <;> decide
  · have ha : aposChar d.toLower = d.toLower := by rw [aposChar, if_neg h1]
    rw [ha]
    by_cases h2 : (d.toLower.toNat == 0x201c || d.toLower.toNat == 0x201d) = true
    · have hq : quoteChar d.toLower = '"' := by rw [quoteChar, if_pos h2]
      rw [hq]
      refine ⟨?_, ?_, ?_⟩ <;> decide
    · have hq : quoteChar d.toLower = d.toLower := by rw [quoteChar, if_neg h2]
      rw [hq]
      refine ⟨toLower_toLower d, ?_, ?_⟩
      · rw [aposChar, if_neg h1]
      · rw [quoteChar, if_neg h2]

/-- Every character of a normalized title is fixed by lowercasing and by
the apostrophe and quote normalizations. -/
theorem titleStable_mem (lx : List Char) (a : Char)
    (ha : a ∈ normalizeTrackTitleL lx) :
    Char.toLower a = a ∧ aposChar a = a ∧ quoteChar a = a := by
  unfold normalizeTrackTitleL at ha
  have h1 := mem_trimWs ha
  rcases mem_collapseWsGo false _ a h1 with h2 | h2
  · rcases List.mem_map.1 h2 with ⟨b, hb, rfl⟩
    rcases List.mem_map.1 hb with ⟨c, hc, rfl⟩
    have hcc : c ∈ lx.map Char.toLower := mem_titleRemovalsL hc
    rcases List.mem_map.1 hcc with ⟨d, _, rfl⟩
    exact titleStable_image d
  · subst h2
    refine ⟨?_, ?_, ?_⟩ <;> decide

/-- Round-two idempotence of the title normalizer on inputs whose
normalized form is fixed by the removal passes. -/
theorem normalizeTrackTitleL_idem (lx : List Char)
    (ht : titleRemovalsL (normalizeTrackTitleL lx) = normalizeTrackTitleL lx) :
    normalizeTrackTitleL (normalizeTrackTitleL lx) = normalizeTrackTitleL lx := by
  set y := normalizeTrackTitleL lx with hy
  have hstab : ∀ a ∈ y, Char.toLower a = a ∧ aposChar a = a ∧ quoteChar a = a :=
    fun a haa => titleStable_mem lx a (hy ▸ haa)
  have hlow : y.map Char.toLower = y :=
    map_eq_self_of_forall y (fun a haa => (hstab a haa).1)
  have hapos : y.map aposChar = y :=
    map_eq_self_of_forall y (fun a haa => (hstab a haa).2.1)
  have hquote : y.map quoteChar = y :=
    map_eq_self_of_forall y (fun a haa => (hstab a haa).2.2)
  conv_lhs => rw [normalizeTrackTitleL]
  rw [hlow, ht, hapos, hquote, hy, normalizeTrackTitleL]
  exact trim_collapse_fixed _


theorem mem_vevoStrip {l : List Char} {a : Char} (h : a ∈ vevoStrip l) : a ∈ l := by
  unfold vevoStrip at h
  split at h
  · exact List.take_subset _ _ h
  · exact h

theorem mem_dashWordSuffixStrip {w l : List Char} {a : Char}
    (h : a ∈ dashWordSuffixStrip w l) : a ∈ l := by
  simp only [dashWordSuffixStrip] at h
  split at h
  · have hp1 : ∀ b, b ∈ dropEndWhile isJsWs (l.take (l.length - w.length)) → b ∈ l :=
      fun b hb => List.take_subset _ _ (mem_dropEndWhile hb)
    split at h
    · next heq =>
      -- h : a ∈ (rest.dropWhile isJsWs).reverse, heq : p1.reverse = '-' :: rest
      rw [List.mem_reverse] at h
      have ha2 := (List.dropWhile_sublist _).subset h
      have : a ∈ ('-' :: _) := List.mem_cons_of_mem '-' ha2
      rw [← heq, List.mem_reverse] at this
      exact hp1 a this
    · exact hp1 a h
  · exact h

theorem mem_artistStripsL {l : List Char} {a : Char}
    (h : a ∈ artistStripsL l) : a ∈ l := by
  unfold artistStripsL at h
  exact mem_vevoStrip (mem_dashWordSuffixStrip (mem_dashWordSuffixStrip h))

/-- Pointwise stability of the artist pipeline's characters. -/
theorem artistStable_of_base (b : Char)
    (hb : (∃ d, b = Char.toLower d) ∨ b ∈ andW ∨ b = ' ')
    (hb2 : b ≠ '&') (hb3 : b ≠ ',') :
    Char.toLower (aposChar b) = aposChar b ∧ aposChar (aposChar b) = aposChar b ∧
      aposChar b ≠ '&' ∧ aposChar b ≠ ',' := by
  by_cases h1 : (b.toNat == 0x2018 || b.toNat == 0x2019) = true
  · have ha : aposChar b = '\'' := by rw [aposChar, if_pos h1]
    rw [ha]
    refine ⟨?_, ?_, ?_, ?_⟩ <;> decide
  · have ha : aposChar b = b := by rw [aposChar, if_neg h1]
    rw [ha]
    refine ⟨?_, ?_, hb2, hb3⟩
    · rcases hb with ⟨d, rfl⟩ | hb | rfl
      · exact toLower_toLower d
      · simp [andW] at hb
        rcases hb with rfl | rfl | rfl | rfl | rfl <;> decide
      · decide
    · rw [aposChar, if_neg h1]

/-- Every character of a normalized artist name is lowercase-stable,
apostrophe-stable, and neither `&` nor `,`. -/
theorem artistStable_mem (lx : List Char) (a : Char)
    (ha : a ∈ normalizeArtistNameL lx) :
    Char.toLower a = a ∧ aposChar a = a ∧ a ≠ '&' ∧ a ≠ ',' := by
  unfold normalizeArtistNameL at ha
  have h1 := mem_trimWs ha
  rcases mem_collapseWsGo false _ a h1 with h2 | h2
  · rcases List.mem_map.1 h2 with ⟨b, hb, rfl⟩
    -- b is in the comma pass output
    have hbAmp : b ≠ '&' := by
      intro hbe
      subst hbe
      rcases mem_replaceAll hb with hb' | hb'
      · exact sep_not_mem_replaceAllGo (by decide) (by decide) _ _ (le_refl _) hb'
      · simp [andW] at hb'
    have hbCom : b ≠ ',' := by
      intro hbe
      subst hbe
      exact sep_not_mem_replaceAllGo (by decide) (by decide) _ _ (le_refl _) hb
    have hbase : (∃ d, b = Char.toLower d) ∨ b ∈ andW ∨ b = ' ' := by
      rcases mem_replaceAll hb with hb1 | hb1
      · rcases mem_replaceAll hb1 with hb2 | hb2
        · rcases mem_camelSplit _ b hb2 with hb3 | hb3
          · have hb4 : b ∈ lx.map Char.toLower := mem_artistStripsL hb3
            rcases List.mem_map.1 hb4 with ⟨d, _, rfl⟩
            exact Or.inl ⟨d, rfl⟩
          · exact Or.inr (Or.inr hb3)
        · exact Or.inr (Or.inl hb2)
      · exact Or.inr (Or.inl hb1)
    exact artistStable_of_base b hbase hbAmp hbCom
  · subst h2
    refine ⟨?_, ?_, ?_, ?_⟩ <;> decide

/-- Round-two idempotence of the artist normalizer on inputs whose
normalized form is fixed by the three channel-suffix strips. -/
theorem normalizeArtistNameL_idem (lx : List Char)
    (hstrips : artistStripsL (normalizeArtistNameL lx) = normalizeArtistNameL lx) :
    normalizeArtistNameL (normalizeArtistNameL lx) = normalizeArtistNameL lx := by
  set y := normalizeArtistNameL lx with hy
  have hstab : ∀ a ∈ y, Char.toLower a = a ∧ aposChar a = a ∧ a ≠ '&' ∧ a ≠ ',' :=
    fun a haa => artistStable_mem lx a (hy ▸ haa)
  have hlow : y.map Char.toLower = y :=
    map_eq_self_of_forall y (fun a haa => (hstab a haa).1)
  have hcam : camelSplit y = y :=
    camelSplit_eq_self y
      (fun a haa => isUpper_false_of_toLower_eq (hstab a haa).1)
  have hamp : replaceAll (trySepChar '&') andW y = y := by
    apply replaceAll_eq_self
    intro c cs hsuf
    cases htm : trySepChar '&' (c :: cs) with
    | none => rfl
    | some n =>
      have hmem : '&' ∈ y := hsuf.subset (trySepChar_imp_mem htm)
      exact absurd rfl (hstab '&' hmem).2.2.1
  have hcom : replaceAll (trySepChar ',') andW y = y := by
    apply replaceAll_eq_self
    intro c cs hsuf
    cases htm : trySepChar ',' (c :: cs) with
    | none => rfl
    | some n =>
      have hmem : ',' ∈ y := hsuf.subset (trySepChar_imp_mem htm)
      exact absurd rfl (hstab ',' hmem).2.2.2
  have hapos : y.map aposChar = y :=
    map_eq_self_of_forall y (fun a haa => (hstab a haa).2.1)
  conv_lhs => rw [normalizeArtistNameL]
  rw [hlow, hstrips, hcam, hamp, hcom, hapos, hy, normalizeArtistNameL]
  exact trim_collapse_fixed _


/-! ## C2 — the claim theorems -/

/-- C2 (counterexample): neither normalization function is idempotent.  A
second application can strip further: the pipe removal fails across a line
break, which the whitespace collapse then turns into a plain space; and the
`vevo` suffix strip removes only one stacked suffix per application. -/
theorem normalize_not_idempotent :
    normalizeTrackTitle (normalizeTrackTitle "a|b\nc") ≠
      normalizeTrackTitle "a|b\nc" ∧
    normalizeArtistName (normalizeArtistName "vevovevo") ≠
      normalizeArtistName "vevovevo" := by
  constructor
  · decide
  · decide

/-- C2 (amended): both normalization functions are idempotent on every
input whose normalized form is left fixed by the removal passes (the ten
tag/suffix removals for titles; the three channel-suffix strips for
artists) — all the remaining passes (lowercasing, camelCase split,
separator replacement, apostrophe/quote normalization, whitespace collapse,
trim) are provably always stable on a normalized output. -/
theorem normalize_idem_amended (x : String)
    (ht : titleRemovals (normalizeTrackTitle x) = normalizeTrackTitle x)
    (ha : artistStrips (normalizeArtistName x) = normalizeArtistName x) :
    normalizeTrackTitle (normalizeTrackTitle x) = normalizeTrackTitle x ∧
    normalizeArtistName (normalizeArtistName x) = normalizeArtistName x := by
  have hmk : ∀ l : List Char, (String.mk l).data = l := fun _ => rfl
  have hTw : ∀ s : String, titleRemovals s = String.mk (titleRemovalsL s.data) :=
    fun _ => rfl
  have hAw : ∀ s : String, artistStrips s = String.mk (artistStripsL s.data) :=
    fun _ => rfl
  have hNt : ∀ s : String,
      normalizeTrackTitle s = String.mk (normalizeTrackTitleL s.data) :=
    fun _ => rfl
  have hNa : ∀ s : String,
      normalizeArtistName s = String.mk (normalizeArtistNameL s.data) :=
    fun _ => rfl
  constructor
  · have h2 := congrArg String.data ht
    rw [hTw, hNt] at h2
    simp only [hmk] at h2
    rw [hNt x, hNt (String.mk (normalizeTrackTitleL x.data))]
    simp only [hmk]
    exact congrArg String.mk (normalizeTrackTitleL_idem x.data h2)
  · have h2 := congrArg String.data ha
    rw [hAw, hNa] at h2
    simp only [hmk] at h2
    rw [hNa x, hNa (String.mk (normalizeArtistNameL x.data))]
    simp only [hmk]
    exact congrArg String.mk (normalizeArtistNameL_idem x.data h2)

/-- Witness for C2 at a concrete input whose normalized forms contain no
removable pattern. -/
theorem normalize_idem_amended_witness :
    normalizeTrackTitle (normalizeTrackTitle "Hello World") =
      normalizeTrackTitle "Hello World" ∧
    normalizeArtistName (normalizeArtistName "Hello World") =
      normalizeArtistName "Hello World" :=
  normalize_idem_amended "Hello World" (by decide) (by decide)

end Spotifyt
